import Mathlib

/-!
Verification of the graph reconciler in `src/elm-web-audio.js` against its
natural-language specification.

The JavaScript source is shallowly embedded below.  Plain JS objects used as
string-keyed dictionaries are modelled as insertion-ordered association lists
(`Obj`), JS values appearing as property values are modelled by `JVal`
(numbers as rationals; the claims do not exercise float-specific behaviour),
and the three property shapes produced by the constructors `property`,
`param` and `scheduledUpdate` are the three constructors of `JProp`.

Node descriptions are the object shapes that can reach the reconciler:
`node(type, properties, connections)` (optionally given a `key` by `keyed`),
`ref(key)` (shape: type 'RefNode' and a key, no properties/connections
fields), and the parameter-selector shape produced by the companion Elm
module `WebAudio.Internal` (type 'AudioParam', a label and a key, again with
no properties/connections fields).  Accessing a missing field such as the
`connections` of a selector is a TypeError in JS; functions that can hit one
return `Option`, with `none` standing for a thrown exception.
-/

namespace ElmWebAudio

/-! ## JS objects as insertion-ordered association lists -/

/-- A JS object used as a dictionary: insertion-ordered key/value list.
`Object.keys` enumerates integer-like keys numerically first; that only
permutes the order in which the differ visits keys, which no claim below
depends on, so we keep plain insertion order. -/
abbrev Obj (α : Type) : Type := List (String × α)

/-- `m[k]`: the binding for `k`, if any (keys never repeat in a JS
object, so the first binding is the only one). -/
def objGet {α : Type} : Obj α → String → Option α
  | [], _ => none
  | p :: rest, k => if p.1 = k then some p.2 else objGet rest k

/-- `k in m`. -/
def objHas {α : Type} (m : Obj α) (k : String) : Bool :=
  (objGet m k).isSome

/-- `m[k] = v`: replace in place when the key exists, append otherwise. -/
def objInsert {α : Type} : Obj α → String → α → Obj α
  | [], k, v => [(k, v)]
  | p :: rest, k, v =>
      if p.1 = k then (k, v) :: rest else p :: objInsert rest k v

/-- `delete m[k]`. -/
def objDelete {α : Type} : Obj α → String → Obj α
  | [], _ => []
  | p :: rest, k =>
      if p.1 = k then objDelete rest k else p :: objDelete rest k

/-- `Object.keys(m)` (modulo the numeric-key reordering noted above). -/
def objKeys {α : Type} (m : Obj α) : List String :=
  m.map (fun p => p.1)

/-! ## Values and properties -/

/-- A JS value usable as a property value.  Numbers are rationals: no claim
exercises float rounding or NaN. -/
inductive JVal : Type where
  | num (q : Rat)
  | str (s : String)
  | bool (b : Bool)
deriving DecidableEq, Repr

/-- The three property shapes built by the source constructors:
`property(label, value)` gives tag 'NodeProperty', `param(label, value)`
gives tag 'AudioParam', and `scheduledUpdate(label, method, target, time)`
gives tag 'ScheduledUpdate' with value object of method/target/time. -/
inductive JProp : Type where
  | nodeProperty (label : String) (value : JVal)
  | audioParam (label : String) (value : JVal)
  | scheduled (label : String) (method : String) (target : JVal) (time : JVal)
deriving DecidableEq, Repr

/-- `export function property(label, value)`. -/
def property (label : String) (value : JVal) : JProp :=
  .nodeProperty label value

/-- `export function param(label, value)`. -/
def param (label : String) (value : JVal) : JProp :=
  .audioParam label value

/-- `export function scheduledUpdate(label, method, target, time)`. -/
def scheduledUpdate (label method : String) (target time : JVal) : JProp :=
  .scheduled label method target time

/-- `export function setValueAtTime(time, label, value)`. -/
def setValueAtTime (time : JVal) (label : String) (value : JVal) : JProp :=
  scheduledUpdate label "setValueAtTime" value time

/-- `export function linearRampToValueAtTime(time, label, value)`. -/
def linearRampToValueAtTime (time : JVal) (label : String) (value : JVal) : JProp :=
  scheduledUpdate label "linearRampToValueAtTime" value time

/-- `export function exponentialRampToValueAtTime(time, label, value)`. -/
def exponentialRampToValueAtTime (time : JVal) (label : String) (value : JVal) : JProp :=
  scheduledUpdate label "exponentialRampToValueAtTime" value time

/-! ## Node descriptions -/

mutual
/-- The node-description object shapes reaching the reconciler (see header
comment).  `vnode`: `node()` output, plus the optional `key` that `keyed`
may have attached.  `refNode`: `ref()` output.  `paramNode`: the
parameter-selector shape encoded by the repository's Elm module
(`AudioParam name key`); it carries no properties/connections fields. -/
inductive VNode : Type where
  | vnode (type : String) (key : Option String) (properties : List JProp)
      (connections : VForest)
  | refNode (key : String)
  | paramNode (label : String) (key : String)

/-- A list of node descriptions (a separate mutual inductive so that the
flattener is structurally recursive and kernel-computable). -/
inductive VForest : Type where
  | nil
  | cons (n : VNode) (rest : VForest)
end

/-- `export function node(type, properties = [], connections = [])`. -/
def node (type : String) (properties : List JProp) (connections : VForest) : VNode :=
  .vnode type none properties connections

/-- `export function ref(key)`. -/
def ref (key : String) : VNode :=
  .refNode key

/-- The `key` field of a description, when the object has one. -/
def vnodeKey : VNode → Option String
  | .vnode _ k _ _ => k
  | .refNode k => some k
  | .paramNode _ k => some k

/-- `export function keyed(key, node)`: `key ? { key, ...node } : node`.
JS truthiness of the string argument is `key ≠ ""` (other falsy arguments
such as `undefined` behave the same way and are represented by `""`).
Note the spread `...node` comes after `key`, so a key field already on
`node` wins over the new one. -/
def keyed (key : String) (n : VNode) : VNode :=
  if key = "" then n
  else
    match n with
    | .vnode ty k ps cs => .vnode ty (some (k.getD key)) ps cs
    | .refNode k => .refNode k
    | .paramNode l k => .paramNode l k

/-! ## The flattener -/

/-- One entry of the flat graph: `{ ...node, key, connections }` with the
resolved string key and the connection list rewritten to strings. -/
structure FlatNode : Type where
  type : String
  key : String
  properties : List JProp
  connections : List String
deriving DecidableEq, Repr

/-- The `key || (base + idx)` pattern: an attached truthy key, else the
base string concatenated with the decimal index (JS coerces the number to
its decimal string). -/
def resolvedKey (base : String) (idx : Nat) (key : Option String) : String :=
  match key with
  | some s => if s = "" then base ++ Nat.repr idx else s
  | none => base ++ Nat.repr idx

/-- The key a child contributes to its parent's connection list:
`connection.key || (key + i)`. -/
def childConnKey (parentKey : String) (i : Nat) (c : VNode) : String :=
  resolvedKey parentKey i (vnodeKey c)

/-- `connections = node.connections.map((connection, i) => connection.key || (key + i))`. -/
def connKeys (parentKey : String) (i : Nat) : VForest → List String
  | .nil => []
  | .cons c rest => childConnKey parentKey i c :: connKeys parentKey (i + 1) rest

mutual
/-- One step of `flatten(base)`'s reducer applied to accumulator `acc`,
description `n` and index `idx`.  A `RefNode` returns the accumulator
unchanged.  A parameter selector is *not* special-cased by the source: it
falls through to the general path, whose first use of `node.connections`
reads a field the selector object does not have — a TypeError, modelled as
`none`.  Otherwise the resolved key is `node.key || (base + idx)`, the
entry `{ ...node, key, connections }` is recorded, and the reducer recurses
over the children with the resolved key as the new base. -/
def flattenNode (base : String) (acc : Obj FlatNode) (idx : Nat) :
    VNode → Option (Obj FlatNode)
  | .refNode _ => some acc
  | .paramNode _ _ => none
  | .vnode ty key props conns =>
      let k := resolvedKey base idx key
      flattenForestAux k (objInsert acc k ⟨ty, k, props, connKeys k 0 conns⟩) 0 conns

/-- `forest.reduce(flatten(base), acc)` starting at index `idx`. -/
def flattenForestAux (base : String) (acc : Obj FlatNode) (idx : Nat) :
    VForest → Option (Obj FlatNode)
  | .nil => some acc
  | .cons n rest => do
      let acc2 ← flattenNode base acc idx n
      flattenForestAux base acc2 (idx + 1) rest
end

/-- `graph.reduce(flatten(), {})` — line 94 of the source. -/
def flattenForest (g : VForest) : Option (Obj FlatNode) :=
  flattenForestAux "" [] 0 g

/-! ## The node differ -/

/-- An operation produced by `diffNode`, before the graph differ or the
patch applier attaches a node key to it: either one of the property objects
themselves, or a fresh `{ type: 'Connection', from, to }` record. -/
inductive NOp : Type where
  | prop (p : JProp)
  | conn (from_ to_ : String)
deriving DecidableEq, Repr

/-- The `{created, deleted}` record returned by `diffNode`. -/
structure NPatch : Type where
  created : List NOp
  deleted : List NOp
deriving DecidableEq, Repr

/-- The label of a property object. -/
def propLabel : JProp → String
  | .nodeProperty l _ => l
  | .audioParam l _ => l
  | .scheduled l _ _ _ => l

/-- The `value` field read by the differ's `!==` comparison.  Keyed
property maps only ever hold 'NodeProperty'/'AudioParam' members, whose
values are `JVal`s; the 'ScheduledUpdate' case (whose `value` is the
method/target/time record) is unreachable there. -/
def propValue : JProp → Option JVal
  | .nodeProperty _ v => some v
  | .audioParam _ v => some v
  | .scheduled _ _ _ _ => none

/-- Whether the tag is 'AudioParam'. -/
def propIsParam : JProp → Bool
  | .audioParam _ _ => true
  | _ => false

/-- Whether the tag is 'ScheduledUpdate'. -/
def propIsSched : JProp → Bool
  | .scheduled _ _ _ _ => true
  | _ => false

/-- `properties.filter(type is NodeProperty or AudioParam).reduce(keyed by
label, last one wins)`. -/
def keyedProps (props : List JProp) : Obj JProp :=
  (props.filter (fun p => !propIsSched p)).foldl
    (fun m p => objInsert m (propLabel p) p) []

/-- `curr.properties.some(prop => prop.type === 'ScheduledUpdate' && prop.label)`
— note the source tests `prop.label` for truthiness instead of comparing it
with the label being deleted. -/
def hasScheduledTruthy (props : List JProp) : Bool :=
  props.any (fun p => match p with
    | .scheduled l _ _ _ => l != ""
    | _ => false)

/-- `existsOnPrev`: a previous property with the same type, label, method,
time and target (lines 430-439). -/
def existsOnPrev (prevProps : List JProp) (label method : String)
    (target time : JVal) : Bool :=
  prevProps.any (fun p => match p with
    | .scheduled l m t ti => l == label && m == method && ti == time && t == target
    | _ => false)

/-- `function diffNode(prev, curr)` (lines 379-459).  The source pushes
onto `patch.created` in the order: value updates (loop over previous
labels), newly present labels, new scheduled updates, new connections; and
onto `patch.deleted`: removed labels, removed connections.  Each push is
kept, in that order, as a list element here. -/
def diffNode (prev curr : FlatNode) : NPatch :=
  let prevP := keyedProps prev.properties
  let currP := keyedProps curr.properties
  let updates : List NOp := prevP.filterMap (fun lp =>
    match objGet currP lp.1 with
    | some cp => if propValue lp.2 ≠ propValue cp then some (.prop cp) else none
    | none => none)
  let removals : List NOp := prevP.filterMap (fun lp =>
    match objGet currP lp.1 with
    | some _ => none
    | none =>
        if propIsParam lp.2 && hasScheduledTruthy curr.properties then none
        else some (.prop lp.2))
  let news : List NOp := currP.filterMap (fun lp =>
    if objHas prevP lp.1 then none else some (.prop lp.2))
  let schedNews : List NOp := curr.properties.filterMap (fun p =>
    match p with
    | .scheduled l m t ti =>
        if existsOnPrev prev.properties l m t ti then none
        else some (.prop (.scheduled l m t ti))
    | _ => none)
  let connNews : List NOp := curr.connections.filterMap (fun k =>
    if prev.connections.contains k then none else some (.conn curr.key k))
  let connDels : List NOp := prev.connections.filterMap (fun k =>
    if curr.connections.contains k then none else some (.conn curr.key k))
  { created := updates ++ news ++ schedNews ++ connNews,
    deleted := removals ++ connDels }

/-! ## The graph differ -/

/-- An element of `patch.created`: `{ key, ...op }` for a node-diff
operation, or a whole flat-node description for a new/replaced key.  The
spread also attaches the key to Connection records; no consumer reads it,
so it is not retained on `conn`. -/
inductive COp : Type where
  | prop (key : String) (p : JProp)
  | conn (from_ to_ : String)
  | node (n : FlatNode)
deriving DecidableEq, Repr

/-- An element of `patch.deleted`.  `rawKey` is the bare key *string*
pushed by the type-change branch (`patch.deleted.push(key)`, line 346);
`nodeDel` is the `{ type: 'AudioNode', key }` record pushed for removed
keys (line 369); the other two are keyed node-diff operations. -/
inductive DOp : Type where
  | rawKey (key : String)
  | nodeDel (key : String)
  | prop (key : String) (p : JProp)
  | conn (from_ to_ : String)
deriving DecidableEq, Repr

/-- The patch produced by `diff` and consumed by `applyPatch`. -/
structure Patch : Type where
  created : List COp
  deleted : List DOp
deriving DecidableEq, Repr

/-- `{ key, ...created }` for a node-diff created operation (line 355) /
`c.key = created.key` in the recursive fresh-node path (line 176). -/
def cOfN (key : String) : NOp → COp
  | .prop p => .prop key p
  | .conn f t => .conn f t

/-- `{ key, ...deleted }` for a node-diff deleted operation (line 356). -/
def dOfN (key : String) : NOp → DOp
  | .prop p => .prop key p
  | .conn f t => .conn f t

/-- `function diff(prev = {}, curr = {})` (lines 330-374).  The first
`Object.keys(curr).forEach` is modelled by iterating the entries of `curr`
directly; the second loop keeps only previous keys absent from `curr`. -/
def diff (prev curr : Obj FlatNode) : Patch :=
  let perKey := curr.map (fun kc =>
    match objGet prev kc.1 with
    | some pn =>
        if pn.type ≠ kc.2.type then
          ([COp.node kc.2], [DOp.rawKey kc.1])
        else
          let np := diffNode pn kc.2
          (np.created.map (cOfN kc.1), np.deleted.map (dOfN kc.1))
    | none => ([COp.node kc.2], []))
  let fromPrev : List DOp := prev.filterMap (fun kp =>
    if objHas curr kp.1 then none else some (DOp.nodeDel kp.1))
  { created := (perKey.map (fun x => x.1)).flatten,
    deleted := (perKey.map (fun x => x.2)).flatten ++ fromPrev }

/-! ## Live engine objects

The `AudioContext` engine is the external collaborator; live objects are
modelled just deeply enough for the reconciler's own reads and writes: an
`AudioParam` is a current value, its intrinsic `defaultValue`, and the list
of still-pending automation events; an `AudioNode` is its fixed set of
parameters (determined by the node type at construction) plus the plain
fields assigned onto it.  `cancelScheduledValues(currentTime)` drops the
pending events.  Parameter attributes of a native node are getter-only
prototype accessors, so a plain-field assignment to a parameter label is a
strict-mode TypeError, while `delete` on one is a silent no-op. -/

/-- A live `AudioParam`. -/
structure LiveParam : Type where
  value : JVal
  defaultValue : JVal
  scheduled : List (String × JVal × JVal)
deriving DecidableEq, Repr

/-- A live `AudioNode`: its parameters and its assigned plain fields. -/
structure LiveNode : Type where
  type : String
  params : Obj LiveParam
  fields : Obj JVal
deriving DecidableEq, Repr

/-- A rational given as an explicit reduced fraction, so that concrete
state comparisons reduce in the kernel (`Rat.div` does not). -/
def ratden (n : Int) (d : Nat) (h1 : d ≠ 0 := by decide)
    (h2 : n.natAbs.Coprime d := by decide) : Rat :=
  ⟨n, d, h1, h2⟩

/-- A fresh parameter at its intrinsic default. -/
def freshParam (d : Rat) : LiveParam :=
  { value := .num d, defaultValue := .num d, scheduled := [] }

/-- The parameter set a node of the given type is created with, at the Web
Audio intrinsic defaults.  Unrecognised types fall back to a gain node
(`createNode`'s default branch warns and calls `createGain`). -/
def paramsOf (type : String) : Obj LiveParam :=
  if type = "AudioDestinationNode" then []
  else if type = "BiquadFilterNode" then
    [("frequency", freshParam 350), ("detune", freshParam 0),
     ("Q", freshParam 1), ("gain", freshParam 0)]
  else if type = "ConstantSourceNode" then [("offset", freshParam 1)]
  else if type = "ConvolverNode" then []
  else if type = "DelayNode" then [("delayTime", freshParam 0)]
  else if type = "DynamicsCompressorNode" then
    [("threshold", freshParam (ratden (-24) 1)), ("knee", freshParam 30),
     ("ratio", freshParam 12), ("attack", freshParam (ratden 3 1000)),
     ("release", freshParam (ratden 1 4))]
  else if type = "OscillatorNode" then
    [("frequency", freshParam 440), ("detune", freshParam 0)]
  else if type = "StereoPannerNode" then [("pan", freshParam 0)]
  else if type = "WaveShaperNode" then []
  else [("gain", freshParam 1)]

/-- `createNode({ type, properties })` (lines 184-255).  The
`DelayNode` branch also reads `maxDelayTime` from the properties, which
only sets the engine-side clamp that nothing here observes, and source
nodes are `start`ed — neither is modelled. -/
def createNode (n : FlatNode) : LiveNode :=
  { type := n.type, params := paramsOf n.type, fields := [] }

/-- The engine-adapter calls the applier makes, recorded as a trace. -/
inductive Eff : Type where
  | cancelledScheduled (key label : String)
  | disconnectedAll (key : String)
  | disconnectedFromParam (from_ to_ label : String)
  | disconnectedFromNode (from_ to_ : String)
  | connectedToParam (from_ to_ label : String)
  | connectedToInput (from_ to_ : String)
deriving DecidableEq, Repr

/-- Reconciler state: the stored previous flat graph (`this.prev`), the
live node table (`this.nodes`), the connect operations queued on
`window.setTimeout`, and the engine-call trace. -/
structure St : Type where
  prev : Obj FlatNode
  nodes : Obj LiveNode
  pending : List (String × String)
  trace : List Eff
deriving DecidableEq, Repr

/-- The fresh `VirtualAudioContext` state (constructor, lines 82-91). -/
def initSt : St :=
  { prev := [], nodes := [], pending := [], trace := [] }

/-- JS `s.split('.')`, via structural recursion on the character list so
that concrete runs reduce in the kernel (core `String.splitOn` does not). -/
def splitDotAux : List Char → List Char → List String
  | [], acc => [String.mk acc.reverse]
  | c :: rest, acc =>
      if c = '.' then String.mk acc.reverse :: splitDotAux rest []
      else splitDotAux rest (c :: acc)

/-- `to.split('.')`. -/
def jsSplitDot (s : String) : List String :=
  splitDotAux s.data []

/-- `deleteNode(key = '')` (lines 271-276): guarded table removal, with a
`disconnect()` of the live object from everything. -/
def deleteNode (st : St) (key : String) : St :=
  if objHas st.nodes key then
    { st with nodes := objDelete st.nodes key,
              trace := st.trace ++ [.disconnectedAll key] }
  else st

/-- `disconnect(from = '', to = null)` (lines 278-305), for the
string-valued `to` the differ produces.  The parameter check here is the
correct `toParam in this.nodes[toNode]`; when the dotted part names a plain
field the engine call receives the field's value instead of a destination —
modelled as a failure (`none`), a case no diff of constructor-built graphs
produces. -/
def disconnect (st : St) (from_ to_ : String) : Option St :=
  if objHas st.nodes from_ then
    if to_ = "" then
      some { st with trace := st.trace ++ [.disconnectedAll from_] }
    else
      let parts := jsSplitDot to_
      let toNode := parts.headD ""
      let toParam : Option String := parts[1]?
      if objHas st.nodes toNode then
        match objGet st.nodes toNode with
        | some tn =>
            match toParam with
            | some p =>
                if p ≠ "" && objHas tn.params p then
                  some { st with trace := st.trace ++ [.disconnectedFromParam from_ toNode p] }
                else if p ≠ "" && objHas tn.fields p then
                  none
                else
                  some { st with trace := st.trace ++ [.disconnectedFromNode from_ toNode] }
            | none =>
                some { st with trace := st.trace ++ [.disconnectedFromNode from_ toNode] }
        | none => none
      else some st
  else some st

/-- One deleted-pass operation of `applyPatch` (lines 102-128).  `none` is
a thrown TypeError.  The 'AudioParam' branch reads
`this.nodes[key][label].cancelScheduledValues` without the `instanceof`
guard the created pass uses, so it throws when the label is not a live
parameter of the node.  A bare string key (`rawKey`) reaches the default
branch, where its `.key` field is `undefined` and `deleteNode`'s default
turns it into `''`.  A 'ScheduledUpdate' record in `deleted` (which no
diff produces) would also fall into the default branch. -/
def deletedOp (st : St) : DOp → Option St
  | .conn f t => disconnect st f t
  | .prop key p =>
      match p with
      | .nodeProperty label _ =>
          match objGet st.nodes key with
          | some n =>
              let n2 := { n with fields := objDelete n.fields label }
              some { st with nodes := objInsert st.nodes key n2 }
          | none => none
      | .audioParam label _ =>
          match objGet st.nodes key with
          | some n =>
              match objGet n.params label with
              | some pa =>
                  let pa2 := { pa with value := pa.defaultValue, scheduled := ([] : List (String × JVal × JVal)) }
                  let n2 := { n with params := objInsert n.params label pa2 }
                  some { st with nodes := objInsert st.nodes key n2,
                                 trace := st.trace ++ [.cancelledScheduled key label] }
              | none => none
          | none => none
      | .scheduled _ _ _ _ => some (deleteNode st key)
  | .rawKey _ => some (deleteNode st "")
  | .nodeDel key => some (deleteNode st key)

/-- `patch.deleted.forEach(...)`. -/
def applyDOps (st : St) : List DOp → Option St
  | [] => some st
  | op :: rest => do
      let st1 ← deletedOp st op
      applyDOps st1 rest

/-- `this.connect(from, to)` queues the operation on `window.setTimeout`
(lines 257-269); only the queuing happens during the patch. -/
def queueConn (st : St) (from_ to_ : String) : St :=
  { st with pending := st.pending ++ [(from_, to_)] }

/-- A created-pass property operation (the 'NodeProperty', 'AudioParam'
and 'ScheduledUpdate' cases of lines 130-164).  `none` is a thrown
TypeError: the node lookup itself, a strict-mode assignment to a
getter-only parameter attribute, or calling a method the parameter does
not have (only the three automation methods the constructors expose are
modelled). -/
def createdProp (st : St) (key : String) (p : JProp) : Option St :=
  match objGet st.nodes key with
  | none => none
  | some n =>
      match p with
      | .nodeProperty label v =>
          if objHas n.params label then none
          else
            let n2 := { n with fields := objInsert n.fields label v }
            some { st with nodes := objInsert st.nodes key n2 }
      | .audioParam label v =>
          match objGet n.params label with
          | some pa =>
              let n2 := { n with params := objInsert n.params label ({ pa with value := v }) }
              some { st with nodes := objInsert st.nodes key n2 }
          | none => some st
      | .scheduled label method target time =>
          match objGet n.params label with
          | some pa =>
              if method = "setValueAtTime" || method = "linearRampToValueAtTime"
                  || method = "exponentialRampToValueAtTime" then
                let pa2 := { pa with scheduled := pa.scheduled ++ [(method, target, time)] }
                let n2 := { n with params := objInsert n.params label pa2 }
                some { st with nodes := objInsert st.nodes key n2 }
              else none
          | none => some st

/-- The created-pass operations of the recursive fresh-node patch.  The
source recursively calls `this.applyPatch(nodePatch)` after assigning
`created.key` onto every created operation; since `diffNode` only emits
property and connection operations, that call exercises exactly the
non-default branches, unfolded here.  `applyNCreatedOps_eq_applyCOps`
below certifies that this unfolding agrees with the general created pass
on the key-assigned operations. -/
def applyNCreatedOps (st : St) (key : String) : List NOp → Option St
  | [] => some st
  | .conn f t :: rest => applyNCreatedOps (queueConn st f t) key rest
  | .prop p :: rest => do
      let st1 ← createdProp st key p
      applyNCreatedOps st1 key rest

/-- The dummy previous node `node(created.type, [], [])` the fresh-node
path diffs against (line 175): no key field, no properties, no
connections.  Its absent `key` is never read; the record field is `""`. -/
def emptyFlat (type : String) : FlatNode :=
  { type := type, key := "", properties := [], connections := [] }

/-- `patch.created.forEach(...)` (lines 130-181).  The default branch
creates the live object, stores it, diffs it against the dummy empty node,
assigns the new key onto the resulting created operations and recursively
applies that patch (whose deleted list is empty). -/
def applyCOps (st : St) : List COp → Option St
  | [] => some st
  | .conn f t :: rest => applyCOps (queueConn st f t) rest
  | .prop key p :: rest => do
      let st1 ← createdProp st key p
      applyCOps st1 rest
  | .node n :: rest => do
      let st1 := { st with nodes := objInsert st.nodes n.key (createNode n) }
      let np := diffNode (emptyFlat n.type) n
      let st2 ← applyDOps st1 (np.deleted.map (dOfN n.key))
      let st3 ← applyNCreatedOps st2 n.key np.created
      applyCOps st3 rest

/-- `applyPatch(patch)`: the deleted pass, then the created pass. -/
def applyPatch (st : St) (p : Patch) : Option St := do
  let st1 ← applyDOps st p.deleted
  applyCOps st1 p.created

/-- One queued connect callback (lines 260-268), run against the table as
it stands when the timeout fires.  The parameter check is the source's
`toParam && toParam in this.nodes` — against the live node *table*.  When
it passes, the engine receives `this.nodes[toNode][toParam]`; if that
label is not a live parameter of the target the call throws inside the
callback (swallowed by the event loop), producing no effect. -/
def runConnectItem (nodes : Obj LiveNode) (c : String × String) : List Eff :=
  let parts := jsSplitDot c.2
  let toNode := parts.headD ""
  let toParam : Option String := parts[1]?
  if objHas nodes c.1 && objHas nodes toNode then
    match toParam with
    | some p =>
        if p ≠ "" && objHas nodes p then
          match objGet nodes toNode with
          | some tn => if objHas tn.params p then [.connectedToParam c.1 toNode p] else []
          | none => []
        else [.connectedToInput c.1 toNode]
    | none => [.connectedToInput c.1 toNode]
  else []

/-- Drain the deferred connect queue: each queued callback fires once,
reading the final table; none can affect the table itself. -/
def runPending (st : St) : St :=
  { st with pending := [],
            trace := st.trace ++ st.pending.flatMap (runConnectItem st.nodes) }

/-- `update(graph = [])` (lines 93-99) followed by the deferred connect
callbacks of that submission: flatten, diff against the stored previous
flat graph, apply the patch, store the new flat graph, drain the queue.
`none` is an exception escaping to the submission caller (flattening or a
patch operation threw). -/
def update (st : St) (g : VForest) : Option St := do
  let f ← flattenForest g
  let st1 ← applyPatch st (diff st.prev f)
  some (runPending { st1 with prev := f })

/-- The patch a submission of `g` from state `st` would compute (lines
94-95), observable for the patch-shaped claims. -/
def updatePatch (st : St) (g : VForest) : Option Patch :=
  (flattenForest g).map (fun f => diff st.prev f)

/-- A sequence of submissions from a given state. -/
def foldUpdates (st : St) : List VForest → Option St
  | [] => some st
  | g :: rest => do
      let st1 ← update st g
      foldUpdates st1 rest

/-! ## Analysis helpers -/

/-- The keys a deleted-pass operation hands to `deleteNode`: removed-key
records their own key, the type-change bare string the empty string (its
`.key` is `undefined`, defaulted to `''`), a stray 'ScheduledUpdate'
record (default branch) its attached key, everything else none. -/
def dKeys : DOp → List String
  | .rawKey _ => [""]
  | .nodeDel k => [k]
  | .prop k p =>
      match p with
      | .scheduled _ _ _ _ => [k]
      | _ => []
  | .conn _ _ => []

/-- All keys a deleted list hands to `deleteNode`. -/
def effDelKeys (l : List DOp) : List String :=
  l.flatMap dKeys

/-- The keys under which a created list stores whole new live nodes. -/
def cKeys (l : List COp) : List String :=
  l.filterMap (fun op =>
    match op with
    | .node n => some n.key
    | _ => none)

/-- Whether a deleted operation is the Fixed-Parameter removal of `label`
on node `key`. -/
def isParamDelFor (key label : String) : DOp → Bool
  | .prop k (.audioParam l _) => k == key && l == label
  | _ => false

/-- Whether an engine call is a whole-node `disconnect()`. -/
def isDisconnectAll : Eff → Bool
  | .disconnectedAll _ => true
  | _ => false

/-- The `c.key = created.key` assignments the fresh-node path performs on
the *property* operations of the recursive patch (line 176).  Those
operation objects are the property objects of the current description
itself — `flatten` copies the node record but keeps the same `properties`
array, `diff` pushes that record, and `diffNode` pushes its property
elements — so each listed write lands on a property object owned by the
caller's input graph. -/
def inputPropKeyWrites (p : Patch) : List (String × JProp) :=
  p.created.flatMap (fun op =>
    match op with
    | .node n =>
        (diffNode (emptyFlat n.type) n).created.filterMap (fun o =>
          match o with
          | .prop q => some (n.key, q)
          | .conn _ _ => none)
    | _ => [])

/-- Well-formedness of a flat graph as `flatten` produces it: keys are
unique and nonempty, and every entry records its own key. -/
def FlatOk (f : Obj FlatNode) : Prop :=
  (objKeys f).Nodup ∧ ∀ p ∈ f, p.2.key = p.1 ∧ p.1 ≠ ""

/-- The reconciler invariant tying the live node table to the stored flat
graph. -/
def Inv (st : St) : Prop :=
  (∀ k, objHas st.nodes k = objHas st.prev k) ∧
    (objKeys st.nodes).Nodup ∧ (objKeys st.prev).Nodup ∧
    (∀ k, objHas st.prev k = true → k ≠ "")

/-! ## Concrete inputs for the claim evaluations -/

/-- Type change at key `a`: first submission. -/
def tcG1 : VForest := .cons (keyed "a" (node "GainNode" [] .nil)) .nil

/-- Type change at key `a`: second submission. -/
def tcG2 : VForest := .cons (keyed "a" (node "OscillatorNode" [] .nil)) .nil

/-- The state after the first type-change submission. -/
def tcSt1 : St := (update initSt tcG1).getD initSt

/-- The state after both type-change submissions. -/
def tcSt2 : St := (update tcSt1 tcG2).getD initSt

/-- Fixed parameter present, then removed alongside an unrelated scheduled
update. -/
def rsPrev : FlatNode :=
  { type := "GainNode", key := "k", properties := [param "gain" (.num 1)],
    connections := [] }

/-- Current side for `rsPrev`: no `gain` parameter, one scheduled update
for a different label. -/
def rsCurr : FlatNode :=
  { type := "GainNode", key := "k",
    properties := [scheduledUpdate "frequency" "setValueAtTime" (.num 440) (.num 1)],
    connections := [] }

/-- Gain node with its `gain` parameter set: first submission. -/
def cxG1 : VForest :=
  .cons (keyed "k" (node "GainNode" [param "gain" (.num 2)] .nil)) .nil

/-- Same node with the parameter removed: second submission. -/
def cxG2 : VForest := .cons (keyed "k" (node "GainNode" [] .nil)) .nil

/-- The state after the first submission of the cancellation scenario. -/
def cxSt1 : St := (update initSt cxG1).getD initSt

/-- The state after both submissions of the cancellation scenario. -/
def cxSt2 : St := (foldUpdates initSt [cxG1, cxG2]).getD initSt

/-- The patch the second cancellation-scenario submission computes. -/
def cxPatch2 : Patch := (updatePatch cxSt1 cxG2).getD { created := [], deleted := [] }

/-- The state after applying that patch. -/
def cxApplied : St := (applyPatch cxSt1 cxPatch2).getD initSt

/-- Current side with the parameter removed and nothing scheduled. -/
def rsCurr2 : FlatNode :=
  { type := "GainNode", key := "k", properties := [], connections := [] }

/-- The live gain node of the cancellation scenario. -/
def c2wN : LiveNode := (objGet cxSt1.nodes "k").getD (createNode (emptyFlat "GainNode"))

/-- Its `gain` parameter. -/
def c2wPa : LiveParam := (objGet c2wN.params "gain").getD (freshParam 0)

/-- The state after executing the lone reset operation on it. -/
def c2wSt : St :=
  (applyDOps cxSt1 [DOp.prop "k" (.audioParam "gain" (.num 2))]).getD initSt

/-- A forest whose second root has a Parameter Selector child. -/
def selForest : VForest :=
  .cons (keyed "osc" (node "OscillatorNode" [] .nil))
    (.cons (node "GainNode" [] (.cons (VNode.paramNode "frequency" "osc") .nil)) .nil)

/-- The same forest with a Reference child instead. -/
def refForest : VForest :=
  .cons (keyed "osc" (node "OscillatorNode" [] .nil))
    (.cons (node "GainNode" [] (.cons (ref "osc") .nil)) .nil)

/-- A live oscillator (has a `frequency` parameter). -/
def oscLive : LiveNode :=
  createNode { type := "OscillatorNode", key := "osc", properties := [], connections := [] }

/-- A live gain node. -/
def srcLive : LiveNode :=
  createNode { type := "GainNode", key := "src", properties := [], connections := [] }

/-- A live table holding a source and an oscillator target. -/
def cnTable : Obj LiveNode := [("src", srcLive), ("osc", oscLive)]

/-- Gain node carrying a parameter label its live object does not have:
first submission. -/
def bgG1 : VForest :=
  .cons (keyed "k" (node "GainNode" [param "bogus" (.num 1)] .nil)) .nil

/-- The same node with that property removed: second submission. -/
def bgG2 : VForest := .cons (keyed "k" (node "GainNode" [] .nil)) .nil

/-- A one-node graph with one plain property, for the input-mutation
evaluation. -/
def mutProps : List JProp := [property "foo" (.num 1)]

/-- The graph owning `mutProps`. -/
def mutG : VForest := .cons (node "GainNode" mutProps .nil) .nil

/-- A small graph for the idempotence witness. -/
def idemG : VForest :=
  .cons (keyed "g" (node "GainNode" [param "gain" (.num 2)]
    (.cons (keyed "out" (node "AudioDestinationNode" [] .nil)) .nil))) .nil

/-- The state after submitting `idemG` once. -/
def idemSt1 : St := (update initSt idemG).getD initSt

/-- The state after submitting `idemG` twice: key-set witness state. -/
def ksSt : St := (foldUpdates initSt [idemG, idemG]).getD initSt

/-- A keyed node, for the `keyed` claims. -/
def kdKeyed : VNode := VNode.vnode "GainNode" (some "b") [] .nil

/-- An unkeyed node, for the `keyed` claims. -/
def kdPlain : VNode := node "GainNode" [] .nil

/-! ## Dictionary lemmas -/

theorem objGet_insert_self {α : Type} (m : Obj α) (k : String) (v : α) :
    objGet (objInsert m k v) k = some v := by
  induction m with
  | nil => simp [objInsert, objGet]
  | cons p rest ih =>
      by_cases h : p.1 = k
      · simp [objInsert, h, objGet]
      · simp [objInsert, h, objGet, ih]

theorem objGet_insert_ne {α : Type} (m : Obj α) {k k2 : String} (v : α)
    (h : k2 ≠ k) : objGet (objInsert m k v) k2 = objGet m k2 := by
  have h2 : ¬ (k = k2) := fun hh => h hh.symm
  induction m with
  | nil => simp [objInsert, objGet, h2]
  | cons p rest ih =>
      by_cases hp : p.1 = k
      · subst hp
        simp [objInsert, objGet, h2]
      · simp [objInsert, hp, objGet, ih]

theorem objHas_insert {α : Type} (m : Obj α) (k k2 : String) (v : α) :
    objHas (objInsert m k v) k2 = true ↔ k2 = k ∨ objHas m k2 = true := by
  by_cases h : k2 = k
  · subst h
    simp [objHas, objGet_insert_self]
  · simp [objHas, objGet_insert_ne m v h, h]

theorem objGet_delete_self {α : Type} (m : Obj α) (k : String) :
    objGet (objDelete m k) k = none := by
  induction m with
  | nil => simp [objDelete, objGet]
  | cons p rest ih =>
      by_cases h : p.1 = k
      · simp [objDelete, h, ih]
      · simp [objDelete, h, objGet, ih]

theorem objGet_delete_ne {α : Type} (m : Obj α) {k k2 : String}
    (h : k2 ≠ k) : objGet (objDelete m k) k2 = objGet m k2 := by
  induction m with
  | nil => simp [objDelete, objGet]
  | cons p rest ih =>
      by_cases hp : p.1 = k
      · subst hp
        have h2 : ¬ (p.1 = k2) := fun hh => h hh.symm
        simp [objDelete, objGet, h2, ih]
      · simp [objDelete, hp, objGet, ih]

theorem objHas_delete {α : Type} (m : Obj α) (k k2 : String) :
    objHas (objDelete m k) k2 = true ↔ objHas m k2 = true ∧ k2 ≠ k := by
  by_cases h : k2 = k
  · subst h
    simp [objHas, objGet_delete_self]
  · simp [objHas, objGet_delete_ne m h, h]

theorem mem_objKeys_iff_objHas {α : Type} (m : Obj α) (k : String) :
    k ∈ objKeys m ↔ objHas m k = true := by
  induction m with
  | nil => simp [objKeys, objHas, objGet]
  | cons p rest ih =>
      by_cases h : p.1 = k
      · simp [objKeys, objHas, objGet, h]
      · have h2 : ¬ (k = p.1) := fun hh => h hh.symm
        simpa [objKeys, objHas, objGet, h, h2] using ih

theorem mem_objKeys_insert {α : Type} (m : Obj α) (k k2 : String) (v : α) :
    k2 ∈ objKeys (objInsert m k v) ↔ k2 = k ∨ k2 ∈ objKeys m := by
  rw [mem_objKeys_iff_objHas, objHas_insert, mem_objKeys_iff_objHas]

theorem objKeys_insert_nodup {α : Type} (m : Obj α) (k : String) (v : α)
    (h : (objKeys m).Nodup) : (objKeys (objInsert m k v)).Nodup := by
  induction m with
  | nil => simp [objInsert, objKeys]
  | cons p rest ih =>
      simp only [objKeys, List.map_cons, List.nodup_cons] at h
      by_cases hp : p.1 = k
      · subst hp
        have he : objInsert (p :: rest) p.1 v = (p.1, v) :: rest := by
          simp [objInsert]
        rw [he]
        simp only [objKeys, List.map_cons, List.nodup_cons]
        exact h
      · simp only [objInsert, if_neg hp, objKeys, List.map_cons, List.nodup_cons]
        constructor
        · intro hmem
          rcases (mem_objKeys_insert rest k p.1 v).mp hmem with h1 | h1
          · exact hp h1
          · exact h.1 h1
        · exact ih h.2

theorem objKeys_delete_nodup {α : Type} (m : Obj α) (k : String)
    (h : (objKeys m).Nodup) : (objKeys (objDelete m k)).Nodup := by
  induction m with
  | nil => simp [objDelete, objKeys]
  | cons p rest ih =>
      simp only [objKeys, List.map_cons, List.nodup_cons] at h
      by_cases hp : p.1 = k
      · simp only [objDelete, if_pos hp]
        exact ih h.2
      · simp only [objDelete, if_neg hp, objKeys, List.map_cons, List.nodup_cons]
        constructor
        · intro hmem
          have hmem2 : objHas (objDelete rest k) p.1 = true :=
            (mem_objKeys_iff_objHas (objDelete rest k) p.1).mp hmem
          have h1 := ((objHas_delete rest k p.1).mp hmem2).1
          exact h.1 ((mem_objKeys_iff_objHas rest p.1).mpr h1)
        · exact ih h.2

theorem objGet_eq_some_mem {α : Type} {m : Obj α} {k : String} {v : α}
    (h : objGet m k = some v) : (k, v) ∈ m := by
  induction m with
  | nil => simp [objGet] at h
  | cons p rest ih =>
      by_cases hp : p.1 = k
      · simp only [objGet, if_pos hp, Option.some.injEq] at h
        have hpv : (k, v) = p := by
          calc (k, v) = (p.1, p.2) := by rw [hp, h]
          _ = p := rfl
        rw [hpv]
        exact List.mem_cons_self _ _
      · simp only [objGet, if_neg hp] at h
        exact List.mem_cons_of_mem _ (ih h)

theorem mem_objGet_of_nodup {α : Type} {m : Obj α} {k : String} {v : α}
    (hn : (objKeys m).Nodup) (h : (k, v) ∈ m) : objGet m k = some v := by
  induction m with
  | nil => simp at h
  | cons p rest ih =>
      simp only [objKeys, List.map_cons, List.nodup_cons] at hn
      rcases List.mem_cons.mp h with h1 | h1
      · rw [← h1]
        simp [objGet]
      · have hk : k ∈ objKeys rest := by
          refine (mem_objKeys_iff_objHas rest k).mpr ?_
          rw [objHas, ih hn.2 h1]
          rfl
        by_cases hp : p.1 = k
        · exact absurd (hp ▸ hk) hn.1
        · simp only [objGet, if_neg hp]
          exact ih hn.2 h1

theorem mem_of_mem_objInsert {α : Type} {m : Obj α} {k : String} {v : α}
    {p : String × α} (h : p ∈ objInsert m k v) : p = (k, v) ∨ p ∈ m := by
  induction m with
  | nil => simpa [objInsert] using h
  | cons q rest ih =>
      by_cases hq : q.1 = k
      · simp only [objInsert, if_pos hq] at h
        rcases List.mem_cons.mp h with h1 | h1
        · exact Or.inl h1
        · exact Or.inr (List.mem_cons_of_mem _ h1)
      · simp only [objInsert, if_neg hq] at h
        rcases List.mem_cons.mp h with h1 | h1
        · exact Or.inr (h1 ▸ List.mem_cons_self _ _)
        · rcases ih h1 with h2 | h2
          · exact Or.inl h2
          · exact Or.inr (List.mem_cons_of_mem _ h2)

/-! ## Flattener well-formedness -/

theorem toDigitsCore_length_lt (b : Nat) :
    ∀ (fuel n : Nat) (ds : List Char),
      ds.length + 1 ≤ (Nat.toDigitsCore b (fuel + 1) n ds).length := by
  intro fuel
  induction fuel with
  | zero =>
      intro n ds
      unfold Nat.toDigitsCore
      simp only []
      by_cases h : n / b = 0
      · simp [h]
      · simp [h, Nat.toDigitsCore]
  | succ fuel ih =>
      intro n ds
      unfold Nat.toDigitsCore
      simp only []
      by_cases h : n / b = 0
      · simp [h]
      · simp only [if_neg h]
        have h2 := ih (n / b) ((n % b).digitChar :: ds)
        simp only [List.length_cons] at h2
        omega

theorem natRepr_length_pos (n : Nat) : 0 < (Nat.repr n).length := by
  have h := toDigitsCore_length_lt 10 n n []
  simp only [List.length_nil] at h
  calc 0 < 1 := Nat.one_pos
  _ ≤ (Nat.toDigitsCore 10 (n + 1) n []).length := h
  _ = (Nat.repr n).length := by rfl

theorem natRepr_ne_empty (n : Nat) : Nat.repr n ≠ "" := by
  intro h
  have h2 := natRepr_length_pos n
  rw [h] at h2
  simp [String.length] at h2

theorem append_ne_empty_of_right {s t : String} (h : t ≠ "") : s ++ t ≠ "" := by
  intro hc
  apply h
  have hl : (s ++ t).length = 0 := by rw [hc]; rfl
  rw [String.length_append] at hl
  have h0 : t.length = 0 := by omega
  exact String.ext (List.length_eq_zero.mp h0)

theorem resolvedKey_ne_empty (base : String) (idx : Nat) (key : Option String) :
    resolvedKey base idx key ≠ "" := by
  cases key with
  | none => exact append_ne_empty_of_right (natRepr_ne_empty idx)
  | some s =>
      by_cases h : s = ""
      · simp only [resolvedKey, if_pos h]
        exact append_ne_empty_of_right (natRepr_ne_empty idx)
      · simp only [resolvedKey, if_neg h]
        exact h

theorem flatOk_insert {f : Obj FlatNode} {k : String} {v : FlatNode}
    (hf : FlatOk f) (hv : v.key = k) (hk : k ≠ "") : FlatOk (objInsert f k v) := by
  constructor
  · exact objKeys_insert_nodup f k v hf.1
  · intro p hp
    rcases mem_of_mem_objInsert hp with h | h
    · rw [h]
      exact ⟨hv, hk⟩
    · exact hf.2 p h

mutual
theorem flattenNode_flatOk (base : String) (acc : Obj FlatNode) (idx : Nat)
    (n : VNode) (f : Obj FlatNode) (hacc : FlatOk acc)
    (h : flattenNode base acc idx n = some f) : FlatOk f :=
  match n with
  | .refNode k => by
      simp only [flattenNode, Option.some.injEq] at h
      exact h ▸ hacc
  | .paramNode l k => by
      simp only [flattenNode] at h
      exact Option.noConfusion h
  | .vnode ty key props conns => by
      simp only [flattenNode] at h
      exact flattenForestAux_flatOk (resolvedKey base idx key)
        (objInsert acc (resolvedKey base idx key)
          ⟨ty, resolvedKey base idx key, props,
            connKeys (resolvedKey base idx key) 0 conns⟩) 0 conns f
        (flatOk_insert hacc rfl (resolvedKey_ne_empty base idx key)) h

theorem flattenForestAux_flatOk (base : String) (acc : Obj FlatNode) (idx : Nat)
    (g : VForest) (f : Obj FlatNode) (hacc : FlatOk acc)
    (h : flattenForestAux base acc idx g = some f) : FlatOk f :=
  match g with
  | .nil => by
      simp only [flattenForestAux, Option.some.injEq] at h
      exact h ▸ hacc
  | .cons n rest => by
      simp only [flattenForestAux, Option.bind_eq_bind, Option.bind_eq_some] at h
      rcases h with ⟨acc2, h1, h2⟩
      exact flattenForestAux_flatOk base acc2 (idx + 1) rest f
        (flattenNode_flatOk base acc idx n acc2 hacc h1) h2
end

theorem flattenForest_flatOk {g : VForest} {f : Obj FlatNode}
    (h : flattenForest g = some f) : FlatOk f := by
  refine flattenForestAux_flatOk "" [] 0 g f ?_ h
  exact ⟨List.nodup_nil, by intro p hp; simp at hp⟩

/-! ## Node-differ lemmas -/

theorem foldl_objInsert_mem {l : List JProp} {acc : Obj JProp} {lp : String × JProp}
    (h : lp ∈ l.foldl (fun m p => objInsert m (propLabel p) p) acc) :
    lp ∈ acc ∨ (lp.2 ∈ l ∧ lp.1 = propLabel lp.2) := by
  induction l generalizing acc with
  | nil => exact Or.inl h
  | cons p t ih =>
      simp only [List.foldl_cons] at h
      rcases ih h with h1 | h1
      · rcases mem_of_mem_objInsert h1 with h2 | h2
        · right
          rw [h2]
          exact ⟨List.mem_cons_self _ _, rfl⟩
        · exact Or.inl h2
      · exact Or.inr ⟨List.mem_cons_of_mem _ h1.1, h1.2⟩

theorem foldl_objInsert_nodup (l : List JProp) (acc : Obj JProp)
    (h : (objKeys acc).Nodup) :
    (objKeys (l.foldl (fun m p => objInsert m (propLabel p) p) acc)).Nodup := by
  induction l generalizing acc with
  | nil => exact h
  | cons p t ih =>
      simp only [List.foldl_cons]
      exact ih _ (objKeys_insert_nodup acc (propLabel p) p h)

theorem keyedProps_nodup (props : List JProp) :
    (objKeys (keyedProps props)).Nodup :=
  foldl_objInsert_nodup _ [] List.nodup_nil

theorem keyedProps_mem {props : List JProp} {lp : String × JProp}
    (h : lp ∈ keyedProps props) :
    lp.2 ∈ props ∧ lp.1 = propLabel lp.2 ∧ propIsSched lp.2 = false := by
  rcases foldl_objInsert_mem h with h1 | h1
  · simp at h1
  · rcases List.mem_filter.mp h1.1 with ⟨hmem, hf⟩
    refine ⟨hmem, h1.2, ?_⟩
    simpa using hf

theorem keyedProps_get_self {props : List JProp} {lp : String × JProp}
    (h : lp ∈ keyedProps props) : objGet (keyedProps props) lp.1 = some lp.2 :=
  mem_objGet_of_nodup (keyedProps_nodup props) h

theorem diffNode_self (n : FlatNode) : diffNode n n = ⟨[], []⟩ := by
  have hupd : ∀ lp ∈ keyedProps n.properties,
      (match objGet (keyedProps n.properties) lp.1 with
        | some cp => if propValue lp.2 ≠ propValue cp then some (NOp.prop cp) else none
        | none => none) = none := by
    intro lp hm
    rw [keyedProps_get_self hm]
    simp
  have hrem : ∀ lp ∈ keyedProps n.properties,
      (match objGet (keyedProps n.properties) lp.1 with
        | some _ => none
        | none =>
            if propIsParam lp.2 && hasScheduledTruthy n.properties then none
            else some (NOp.prop lp.2)) = none := by
    intro lp hm
    rw [keyedProps_get_self hm]
  have hnews : ∀ lp ∈ keyedProps n.properties,
      (if objHas (keyedProps n.properties) lp.1 then none
        else some (NOp.prop lp.2)) = none := by
    intro lp hm
    have : objHas (keyedProps n.properties) lp.1 = true := by
      rw [objHas, keyedProps_get_self hm]
      rfl
    simp [this]
  have hsched : ∀ p ∈ n.properties,
      (match p with
        | .scheduled l m t ti =>
            if existsOnPrev n.properties l m t ti then none
            else some (NOp.prop (.scheduled l m t ti))
        | _ => none) = none := by
    intro p hm
    match p with
    | .nodeProperty _ _ => rfl
    | .audioParam _ _ => rfl
    | .scheduled l m t ti =>
        simp only []
        have : existsOnPrev n.properties l m t ti = true := by
          refine List.any_eq_true.mpr ⟨.scheduled l m t ti, hm, ?_⟩
          simp
        simp [this]
  have hconn : ∀ k ∈ n.connections,
      (if n.connections.contains k then none else some (NOp.conn n.key k)) = none := by
    intro k hm
    simp [hm]
  simp only [diffNode, NPatch.mk.injEq]
  constructor
  · rw [List.filterMap_eq_nil_iff.mpr hupd, List.filterMap_eq_nil_iff.mpr hnews,
      List.filterMap_eq_nil_iff.mpr hsched, List.filterMap_eq_nil_iff.mpr hconn]
    rfl
  · rw [List.filterMap_eq_nil_iff.mpr hrem, List.filterMap_eq_nil_iff.mpr hconn]
    rfl

theorem diffNode_empty_deleted (ty : String) (n : FlatNode) :
    (diffNode (emptyFlat ty) n).deleted = [] := rfl

theorem diffNode_deleted_shape {p c : FlatNode} {op : NOp}
    (h : op ∈ (diffNode p c).deleted) :
    (∃ q, op = .prop q ∧ propIsSched q = false) ∨ ∃ f t, op = .conn f t := by
  simp only [diffNode] at h
  rcases List.mem_append.mp h with h1 | h1
  · rcases List.mem_filterMap.mp h1 with ⟨lp, hl, hf⟩
    left
    split at hf
    · exact Option.noConfusion hf
    · split at hf
      · exact Option.noConfusion hf
      · rw [Option.some.injEq] at hf
        exact ⟨lp.2, hf.symm, (keyedProps_mem hl).2.2⟩
  · rcases List.mem_filterMap.mp h1 with ⟨k, hk, hf⟩
    right
    split at hf
    · exact Option.noConfusion hf
    · rw [Option.some.injEq] at hf
      exact ⟨c.key, k, hf.symm⟩

theorem dKeys_dOfN_of_deleted {p c : FlatNode} {op : NOp} (key : String)
    (h : op ∈ (diffNode p c).deleted) : dKeys (dOfN key op) = [] := by
  rcases diffNode_deleted_shape h with ⟨q, rfl, hq⟩ | ⟨f, t, rfl⟩
  · cases q with
    | nodeProperty _ _ => rfl
    | audioParam _ _ => rfl
    | scheduled _ _ _ _ => simp [propIsSched] at hq
  · rfl

theorem cKeys_map_cOfN (key : String) (l : List NOp) :
    cKeys (l.map (cOfN key)) = [] := by
  induction l with
  | nil => rfl
  | cons op rest ih =>
      cases op with
      | prop p => simpa [cKeys, cOfN] using ih
      | conn f t => simpa [cKeys, cOfN] using ih

/-! ## Patch-applier state lemmas -/

theorem deleteNode_spec (st : St) (key : String) :
    (∀ k, objHas (deleteNode st key).nodes k = true ↔
      (objHas st.nodes k = true ∧ k ≠ key))
    ∧ ((objKeys st.nodes).Nodup → (objKeys (deleteNode st key).nodes).Nodup)
    ∧ ∃ added, (deleteNode st key).trace = st.trace ++ added ∧
        ∀ k l, Eff.cancelledScheduled k l ∉ added := by
  unfold deleteNode
  by_cases h : objHas st.nodes key = true
  · simp only [h, if_true]
    refine ⟨fun k => objHas_delete _ _ _, fun hn => objKeys_delete_nodup _ _ hn,
      [.disconnectedAll key], rfl, ?_⟩
    intro k l hm
    simp at hm
  · simp only [h, if_false]
    refine ⟨?_, fun hn => hn, [], by simp, by intro k l hm; simp at hm⟩
    intro k
    constructor
    · intro hk
      refine ⟨hk, ?_⟩
      intro hke
      rw [hke] at hk
      exact h hk
    · exact fun hk => hk.1

theorem disconnect_spec {st st' : St} {f t : String}
    (h : disconnect st f t = some st') :
    st'.nodes = st.nodes ∧
      ∃ added, st'.trace = st.trace ++ added ∧
        ∀ k l, Eff.cancelledScheduled k l ∉ added := by
  unfold disconnect at h
  split at h
  · split at h
    · rw [Option.some.injEq] at h
      subst h
      exact ⟨rfl, _, rfl, by intro k l hm; simp at hm⟩
    · simp only [] at h
      split at h
      · split at h
        · split at h
          · split at h
            · rw [Option.some.injEq] at h
              subst h
              exact ⟨rfl, _, rfl, by intro k l hm; simp at hm⟩
            · split at h
              · exact Option.noConfusion h
              · rw [Option.some.injEq] at h
                subst h
                exact ⟨rfl, _, rfl, by intro k l hm; simp at hm⟩
          · rw [Option.some.injEq] at h
            subst h
            exact ⟨rfl, _, rfl, by intro k l hm; simp at hm⟩
        · exact Option.noConfusion h
      · rw [Option.some.injEq] at h
        subst h
        exact ⟨rfl, [], by simp, by intro k l hm; simp at hm⟩
  · rw [Option.some.injEq] at h
    subst h
    exact ⟨rfl, [], by simp, by intro k l hm; simp at hm⟩

theorem objHas_of_objGet_eq_some {α : Type} {m : Obj α} {k : String} {v : α}
    (h : objGet m k = some v) : objHas m k = true := by
  rw [objHas, h]
  rfl

theorem deletedOp_spec {st st' : St} {op : DOp} (h : deletedOp st op = some st') :
    (∀ k, objHas st'.nodes k = true ↔ (objHas st.nodes k = true ∧ k ∉ dKeys op))
    ∧ ((objKeys st.nodes).Nodup → (objKeys st'.nodes).Nodup)
    ∧ ∃ added, st'.trace = st.trace ++ added ∧
        ∀ k l, Eff.cancelledScheduled k l ∈ added → isParamDelFor k l op = true := by
  cases op with
  | conn f t =>
      obtain ⟨hn, added, htr, hc⟩ := disconnect_spec h
      refine ⟨?_, ?_, added, htr, ?_⟩
      · intro k
        rw [hn]
        simp [dKeys]
      · intro hd
        rw [hn]
        exact hd
      · intro k l hm
        exact absurd hm (hc k l)
  | rawKey key =>
      simp only [deletedOp, Option.some.injEq] at h
      subst h
      obtain ⟨h1, h2, added, htr, hc⟩ := deleteNode_spec st ""
      refine ⟨?_, h2, added, htr, ?_⟩
      · intro k
        rw [h1]
        simp [dKeys]
      · intro k l hm
        exact absurd hm (hc k l)
  | nodeDel key =>
      simp only [deletedOp, Option.some.injEq] at h
      subst h
      obtain ⟨h1, h2, added, htr, hc⟩ := deleteNode_spec st key
      refine ⟨?_, h2, added, htr, ?_⟩
      · intro k
        rw [h1]
        simp [dKeys]
      · intro k l hm
        exact absurd hm (hc k l)
  | prop key p =>
      cases p with
      | nodeProperty label v =>
          simp only [deletedOp] at h
          split at h
          · rename_i n heq
            rw [Option.some.injEq] at h
            subst h
            have hk : objHas st.nodes key = true := objHas_of_objGet_eq_some heq
            refine ⟨?_, fun hd => objKeys_insert_nodup _ _ _ hd, [], by simp, ?_⟩
            · intro k
              simp only [dKeys, List.not_mem_nil, not_false_iff, and_true]
              rw [objHas_insert]
              constructor
              · rintro (rfl | h2)
                · exact hk
                · exact h2
              · exact Or.inr
            · intro k l hm
              simp at hm
          · exact Option.noConfusion h
      | audioParam label v =>
          simp only [deletedOp] at h
          split at h
          · rename_i n heq
            split at h
            · rename_i pa heq2
              rw [Option.some.injEq] at h
              subst h
              have hk : objHas st.nodes key = true := objHas_of_objGet_eq_some heq
              refine ⟨?_, fun hd => objKeys_insert_nodup _ _ _ hd,
                [.cancelledScheduled key label], rfl, ?_⟩
              · intro k
                simp only [dKeys, List.not_mem_nil, not_false_iff, and_true]
                rw [objHas_insert]
                constructor
                · rintro (rfl | h2)
                  · exact hk
                  · exact h2
                · exact Or.inr
              · intro k l hm
                simp only [List.mem_singleton, Eff.cancelledScheduled.injEq] at hm
                simp [isParamDelFor, hm.1, hm.2]
            · exact Option.noConfusion h
          · exact Option.noConfusion h
      | scheduled l m t ti =>
          simp only [deletedOp, Option.some.injEq] at h
          subst h
          obtain ⟨h1, h2, added, htr, hc⟩ := deleteNode_spec st key
          refine ⟨?_, h2, added, htr, ?_⟩
          · intro k
            rw [h1]
            simp [dKeys]
          · intro k l hm
            exact absurd hm (hc k l)

theorem applyDOps_spec {dls : List DOp} {st st' : St}
    (h : applyDOps st dls = some st') :
    (∀ k, objHas st'.nodes k = true ↔
      (objHas st.nodes k = true ∧ k ∉ effDelKeys dls))
    ∧ ((objKeys st.nodes).Nodup → (objKeys st'.nodes).Nodup)
    ∧ ∃ added, st'.trace = st.trace ++ added ∧
        ∀ k l, Eff.cancelledScheduled k l ∈ added →
          ∃ op ∈ dls, isParamDelFor k l op = true := by
  induction dls generalizing st with
  | nil =>
      simp only [applyDOps, Option.some.injEq] at h
      subst h
      exact ⟨by simp [effDelKeys], fun hd => hd, [], by simp,
        by intro k l hm; simp at hm⟩
  | cons op rest ih =>
      simp only [applyDOps, Option.bind_eq_bind, Option.bind_eq_some] at h
      rcases h with ⟨st1, h1, h2⟩
      obtain ⟨m1, n1, a1, t1, c1⟩ := deletedOp_spec h1
      obtain ⟨m2, n2, a2, t2, c2⟩ := ih h2
      refine ⟨?_, fun hd => n2 (n1 hd), a1 ++ a2, ?_, ?_⟩
      · intro k
        rw [m2 k, m1 k]
        simp only [effDelKeys, List.flatMap_cons, List.mem_append]
        constructor
        · rintro ⟨⟨hh, hd1⟩, hd2⟩
          refine ⟨hh, ?_⟩
          intro hmem
          rcases hmem with hm | hm
          · exact hd1 hm
          · exact hd2 (by simpa [effDelKeys] using hm)
        · rintro ⟨hh, hd⟩
          refine ⟨⟨hh, fun hm => hd (Or.inl hm)⟩, ?_⟩
          intro hm
          exact hd (Or.inr (by simpa [effDelKeys] using hm))
      · rw [t2, t1, List.append_assoc]
      · intro k l hm
        rcases List.mem_append.mp hm with hm1 | hm1
        · exact ⟨op, List.mem_cons_self _ _, c1 k l hm1⟩
        · rcases c2 k l hm1 with ⟨op2, hop2, hc⟩
          exact ⟨op2, List.mem_cons_of_mem _ hop2, hc⟩

theorem objHas_insert_existing {α : Type} {m : Obj α} {key : String} {v : α}
    (hk : objHas m key = true) (k : String) :
    objHas (objInsert m key v) k = true ↔ objHas m k = true := by
  rw [objHas_insert]
  constructor
  · rintro (rfl | h2)
    · exact hk
    · exact h2
  · exact Or.inr

theorem createdProp_spec {st st' : St} {key : String} {p : JProp}
    (h : createdProp st key p = some st') :
    (∀ k, objHas st'.nodes k = true ↔ objHas st.nodes k = true)
    ∧ ((objKeys st.nodes).Nodup → (objKeys st'.nodes).Nodup)
    ∧ st'.trace = st.trace := by
  cases p with
  | nodeProperty label v =>
      simp only [createdProp] at h
      split at h
      · exact Option.noConfusion h
      · rename_i n heq
        have hk : objHas st.nodes key = true := objHas_of_objGet_eq_some heq
        split at h
        · exact Option.noConfusion h
        · rw [Option.some.injEq] at h
          subst h
          exact ⟨objHas_insert_existing hk, fun hd => objKeys_insert_nodup _ _ _ hd, rfl⟩
  | audioParam label v =>
      simp only [createdProp] at h
      split at h
      · exact Option.noConfusion h
      · rename_i n heq
        have hk : objHas st.nodes key = true := objHas_of_objGet_eq_some heq
        split at h
        · rw [Option.some.injEq] at h
          subst h
          exact ⟨objHas_insert_existing hk, fun hd => objKeys_insert_nodup _ _ _ hd, rfl⟩
        · rw [Option.some.injEq] at h
          subst h
          exact ⟨fun k => Iff.rfl, fun hd => hd, rfl⟩
  | scheduled label method target time =>
      simp only [createdProp] at h
      split at h
      · exact Option.noConfusion h
      · rename_i n heq
        have hk : objHas st.nodes key = true := objHas_of_objGet_eq_some heq
        split at h
        · split at h
          · rw [Option.some.injEq] at h
            subst h
            exact ⟨objHas_insert_existing hk, fun hd => objKeys_insert_nodup _ _ _ hd, rfl⟩
          · exact Option.noConfusion h
        · rw [Option.some.injEq] at h
          subst h
          exact ⟨fun k => Iff.rfl, fun hd => hd, rfl⟩

theorem applyNCreatedOps_spec {ops : List NOp} {st st' : St} {key : String}
    (h : applyNCreatedOps st key ops = some st') :
    (∀ k, objHas st'.nodes k = true ↔ objHas st.nodes k = true)
    ∧ ((objKeys st.nodes).Nodup → (objKeys st'.nodes).Nodup)
    ∧ st'.trace = st.trace := by
  induction ops generalizing st with
  | nil =>
      simp only [applyNCreatedOps, Option.some.injEq] at h
      subst h
      exact ⟨fun k => Iff.rfl, fun hd => hd, rfl⟩
  | cons op rest ih =>
      cases op with
      | conn f t =>
          simp only [applyNCreatedOps] at h
          obtain ⟨m2, n2, t2⟩ := ih h
          exact ⟨m2, n2, t2⟩
      | prop p =>
          simp only [applyNCreatedOps, Option.bind_eq_bind, Option.bind_eq_some] at h
          rcases h with ⟨st1, h1, h2⟩
          obtain ⟨m1, n1, t1⟩ := createdProp_spec h1
          obtain ⟨m2, n2, t2⟩ := ih h2
          exact ⟨fun k => (m2 k).trans (m1 k), fun hd => n2 (n1 hd), t2.trans t1⟩

theorem applyCOps_spec {ops : List COp} {st st' : St}
    (h : applyCOps st ops = some st') :
    (∀ k, objHas st'.nodes k = true ↔
      (objHas st.nodes k = true ∨ k ∈ cKeys ops))
    ∧ ((objKeys st.nodes).Nodup → (objKeys st'.nodes).Nodup)
    ∧ ∃ added, st'.trace = st.trace ++ added ∧
        ∀ k l, Eff.cancelledScheduled k l ∉ added := by
  induction ops generalizing st with
  | nil =>
      simp only [applyCOps, Option.some.injEq] at h
      subst h
      exact ⟨by simp [cKeys], fun hd => hd, [], by simp,
        by intro k l hm; simp at hm⟩
  | cons op rest ih =>
      cases op with
      | conn f t =>
          simp only [applyCOps] at h
          obtain ⟨m2, n2, a2, t2, c2⟩ := ih h
          refine ⟨?_, n2, a2, t2, c2⟩
          intro k
          rw [m2 k]
          simp [cKeys, queueConn]
      | prop key p =>
          simp only [applyCOps, Option.bind_eq_bind, Option.bind_eq_some] at h
          rcases h with ⟨st1, h1, h2⟩
          obtain ⟨m1, n1, t1⟩ := createdProp_spec h1
          obtain ⟨m2, n2, a2, t2, c2⟩ := ih h2
          refine ⟨?_, fun hd => n2 (n1 hd), a2, by rw [t2, t1], c2⟩
          intro k
          rw [m2 k, m1 k]
          simp [cKeys]
      | node n =>
          simp only [applyCOps, Option.bind_eq_bind, Option.bind_eq_some,
            diffNode_empty_deleted, List.map_nil] at h
          rcases h with ⟨st2, h2, st3, h3, h4⟩
          simp only [applyDOps, Option.some.injEq] at h2
          subst h2
          obtain ⟨m3, n3, t3⟩ := applyNCreatedOps_spec h3
          obtain ⟨m4, n4, a4, t4, c4⟩ := ih h4
          refine ⟨?_, ?_, a4, ?_, c4⟩
          · intro k
            rw [m4 k, m3 k]
            simp only [objHas_insert, cKeys, List.filterMap_cons, List.mem_cons]
            constructor
            · rintro ((rfl | hh) | hh)
              · exact Or.inr (Or.inl rfl)
              · exact Or.inl hh
              · exact Or.inr (Or.inr (by simpa [cKeys] using hh))
            · rintro (hh | (rfl | hh))
              · exact Or.inl (Or.inr hh)
              · exact Or.inl (Or.inl rfl)
              · exact Or.inr (by simpa [cKeys] using hh)
          · intro hd
            exact n4 (n3 (objKeys_insert_nodup _ _ _ hd))
          · rw [t4, t3]

theorem applyPatch_spec {st st' : St} {p : Patch}
    (h : applyPatch st p = some st') :
    (∀ k, objHas st'.nodes k = true ↔
      ((objHas st.nodes k = true ∧ k ∉ effDelKeys p.deleted) ∨ k ∈ cKeys p.created))
    ∧ ((objKeys st.nodes).Nodup → (objKeys st'.nodes).Nodup)
    ∧ ∃ added, st'.trace = st.trace ++ added ∧
        ∀ k l, Eff.cancelledScheduled k l ∈ added →
          ∃ op ∈ p.deleted, isParamDelFor k l op = true := by
  simp only [applyPatch, Option.bind_eq_bind, Option.bind_eq_some] at h
  rcases h with ⟨st1, h1, h2⟩
  obtain ⟨m1, n1, a1, t1, c1⟩ := applyDOps_spec h1
  obtain ⟨m2, n2, a2, t2, c2⟩ := applyCOps_spec h2
  refine ⟨?_, fun hd => n2 (n1 hd), a1 ++ a2, ?_, ?_⟩
  · intro k
    rw [m2 k, m1 k]
  · rw [t2, t1, List.append_assoc]
  · intro k l hm
    rcases List.mem_append.mp hm with hm1 | hm1
    · exact c1 k l hm1
    · exact absurd hm1 (c2 k l)

/-! ## Graph-differ membership lemmas -/

theorem objGet_eq_none_of_objHas_false {α : Type} {m : Obj α} {k : String}
    (h : objHas m k = false) : objGet m k = none := by
  rw [objHas] at h
  cases hg : objGet m k with
  | none => rfl
  | some v =>
      rw [hg] at h
      simp at h

theorem objGet_isSome_of_objHas {α : Type} {m : Obj α} {k : String}
    (h : objHas m k = true) : ∃ v, objGet m k = some v := by
  rw [objHas] at h
  cases hg : objGet m k with
  | none =>
      rw [hg] at h
      simp at h
  | some v => exact ⟨v, rfl⟩

theorem objHas_of_mem {α : Type} {m : Obj α} {kv : String × α}
    (h : kv ∈ m) : objHas m kv.1 = true := by
  rw [← mem_objKeys_iff_objHas]
  exact List.mem_map.mpr ⟨kv, h, rfl⟩

theorem effDelKeys_diff_sub {prev curr : Obj FlatNode} {x : String}
    (h : x ∈ effDelKeys (diff prev curr).deleted) :
    x = "" ∨ (objHas prev x = true ∧ objHas curr x = false) := by
  simp only [diff, effDelKeys] at h
  rw [List.flatMap_append] at h
  rcases List.mem_append.mp h with h1 | h1
  · rcases List.mem_flatMap.mp h1 with ⟨op, hop, hx⟩
    rcases List.mem_flatten.mp hop with ⟨sub, hsub, hopsub⟩
    rw [List.map_map] at hsub
    rcases List.mem_map.mp hsub with ⟨kc, hkc, rfl⟩
    simp only [Function.comp] at hopsub
    cases hg : objGet prev kc.1 with
    | none =>
        rw [hg] at hopsub
        simp only [] at hopsub
        simp at hopsub
    | some pn =>
        rw [hg] at hopsub
        simp only [] at hopsub
        by_cases ht : pn.type ≠ kc.2.type
        · rw [if_pos ht] at hopsub
          simp only [List.mem_singleton] at hopsub
          subst hopsub
          simp only [dKeys, List.mem_singleton] at hx
          exact Or.inl hx
        · rw [if_neg ht] at hopsub
          simp only [List.mem_map] at hopsub
          rcases hopsub with ⟨nop, hnop, rfl⟩
          rw [dKeys_dOfN_of_deleted kc.1 hnop] at hx
          simp at hx
  · rcases List.mem_flatMap.mp h1 with ⟨op, hop, hx⟩
    rcases List.mem_filterMap.mp hop with ⟨kp, hkp, hf⟩
    split at hf
    · exact Option.noConfusion hf
    · rename_i hcurr
      rw [Option.some.injEq] at hf
      subst hf
      simp only [dKeys, List.mem_singleton] at hx
      subst hx
      refine Or.inr ⟨objHas_of_mem hkp, ?_⟩
      cases hcc : objHas curr kp.1 with
      | false => rfl
      | true => exact absurd hcc hcurr

theorem effDelKeys_diff_complete {prev curr : Obj FlatNode} {k : String}
    (hp : objHas prev k = true) (hc : objHas curr k = false) :
    k ∈ effDelKeys (diff prev curr).deleted := by
  obtain ⟨v, hv⟩ := objGet_isSome_of_objHas hp
  have hmem : (k, v) ∈ prev := objGet_eq_some_mem hv
  simp only [diff, effDelKeys]
  rw [List.flatMap_append]
  refine List.mem_append.mpr (Or.inr ?_)
  refine List.mem_flatMap.mpr ⟨.nodeDel k, ?_, by simp [dKeys]⟩
  refine List.mem_filterMap.mpr ⟨(k, v), hmem, ?_⟩
  simp [hc]

theorem cKeys_diff_sub {prev curr : Obj FlatNode} {x : String}
    (hok : FlatOk curr) (h : x ∈ cKeys (diff prev curr).created) :
    objHas curr x = true := by
  simp only [diff, cKeys] at h
  rcases List.mem_filterMap.mp h with ⟨op, hop, hf⟩
  rcases List.mem_flatten.mp hop with ⟨sub, hsub, hopsub⟩
  rw [List.map_map] at hsub
  rcases List.mem_map.mp hsub with ⟨kc, hkc, rfl⟩
  simp only [Function.comp] at hopsub
  have hkey : kc.2.key = kc.1 := (hok.2 kc hkc).1
  have hhas : objHas curr kc.1 = true := objHas_of_mem hkc
  cases hg : objGet prev kc.1 with
  | none =>
      rw [hg] at hopsub
      simp only [] at hopsub
      simp only [List.mem_singleton] at hopsub
      subst hopsub
      simp only [Option.some.injEq] at hf
      rw [← hf, hkey]
      exact hhas
  | some pn =>
      rw [hg] at hopsub
      simp only [] at hopsub
      by_cases ht : pn.type ≠ kc.2.type
      · rw [if_pos ht] at hopsub
        simp only [List.mem_singleton] at hopsub
        subst hopsub
        simp only [Option.some.injEq] at hf
        rw [← hf, hkey]
        exact hhas
      · rw [if_neg ht] at hopsub
        simp only [List.mem_map] at hopsub
        rcases hopsub with ⟨nop, _, rfl⟩
        cases nop with
        | prop p => simp [cOfN] at hf
        | conn f t => simp [cOfN] at hf

theorem cKeys_diff_complete {prev curr : Obj FlatNode} {k : String}
    (hok : FlatOk curr) (hc : objHas curr k = true) (hp : objHas prev k = false) :
    k ∈ cKeys (diff prev curr).created := by
  obtain ⟨cn, hcn⟩ := objGet_isSome_of_objHas hc
  have hmem : (k, cn) ∈ curr := objGet_eq_some_mem hcn
  have hkey : cn.key = k := (hok.2 (k, cn) hmem).1
  have hgp : objGet prev k = none := objGet_eq_none_of_objHas_false hp
  simp only [diff, cKeys]
  refine List.mem_filterMap.mpr ⟨COp.node cn, ?_, by simp [hkey]⟩
  refine List.mem_flatten.mpr ⟨[COp.node cn], ?_, List.mem_singleton_self _⟩
  rw [List.map_map]
  refine List.mem_map.mpr ⟨(k, cn), hmem, ?_⟩
  simp only [Function.comp]
  rw [hgp]

/-! ## The submission-level invariant -/

theorem flatOk_has_ne_empty {f : Obj FlatNode} (hok : FlatOk f) :
    ∀ k, objHas f k = true → k ≠ "" := by
  intro k hk
  obtain ⟨v, hv⟩ := objGet_isSome_of_objHas hk
  exact (hok.2 (k, v) (objGet_eq_some_mem hv)).2

theorem applyPatch_diff_keys {prev curr : Obj FlatNode} {st st' : St}
    (hInv : ∀ k, objHas st.nodes k = objHas prev k)
    (hCurrOk : FlatOk curr)
    (h : applyPatch st (diff prev curr) = some st') :
    ∀ k, objHas st'.nodes k = objHas curr k := by
  obtain ⟨m, _, _⟩ := applyPatch_spec h
  intro k
  cases hc : objHas curr k with
  | true =>
      refine (m k).mpr ?_
      cases hp : objHas prev k with
      | true =>
          refine Or.inl ⟨by rw [hInv k, hp], ?_⟩
          intro hmem
          rcases effDelKeys_diff_sub hmem with heq | ⟨_, hcf⟩
          · subst heq
            exact (flatOk_has_ne_empty hCurrOk _ hc) rfl
          · rw [hc] at hcf
            exact Bool.noConfusion hcf
      | false => exact Or.inr (cKeys_diff_complete hCurrOk hc hp)
  | false =>
      cases hs : objHas st'.nodes k with
      | false => rfl
      | true =>
          exfalso
          rcases (m k).mp hs with ⟨hhas, hnd⟩ | hck
          · rw [hInv k] at hhas
            exact hnd (effDelKeys_diff_complete hhas hc)
          · rw [cKeys_diff_sub hCurrOk hck] at hc
            exact Bool.noConfusion hc

theorem update_inv {st st' : St} {g : VForest} (hI : Inv st)
    (h : update st g = some st') : Inv st' := by
  simp only [update, Option.bind_eq_bind, Option.bind_eq_some] at h
  rcases h with ⟨f, hf, st1, hap, heq⟩
  rw [Option.some.injEq] at heq
  subst heq
  have hok := flattenForest_flatOk hf
  obtain ⟨_, hnodup, _⟩ := applyPatch_spec hap
  refine ⟨?_, hnodup hI.2.1, hok.1, flatOk_has_ne_empty hok⟩
  intro k
  exact applyPatch_diff_keys hI.1 hok hap k

theorem inv_initSt : Inv initSt := by
  refine ⟨fun k => rfl, List.nodup_nil, List.nodup_nil, ?_⟩
  intro k hk
  simp [initSt, objHas, objGet] at hk

theorem foldUpdates_inv {gs : List VForest} {st s' : St} (hI : Inv st)
    (h : foldUpdates st gs = some s') : Inv s' := by
  induction gs generalizing st with
  | nil =>
      simp only [foldUpdates, Option.some.injEq] at h
      exact h ▸ hI
  | cons g rest ih =>
      simp only [foldUpdates, Option.bind_eq_bind, Option.bind_eq_some] at h
      rcases h with ⟨st1, h1, h2⟩
      exact ih (update_inv hI h1) h2

/-! ## Idempotent diff -/

theorem diff_self {f : Obj FlatNode} (hn : (objKeys f).Nodup) :
    diff f f = { created := [], deleted := [] } := by
  have hcre : (diff f f).created = [] := by
    rw [List.eq_nil_iff_forall_not_mem]
    intro op hop
    simp only [diff] at hop
    rcases List.mem_flatten.mp hop with ⟨sub, hsub, hopsub⟩
    rw [List.map_map] at hsub
    rcases List.mem_map.mp hsub with ⟨kc, hkc, rfl⟩
    simp only [Function.comp] at hopsub
    rw [mem_objGet_of_nodup hn hkc] at hopsub
    simp only [] at hopsub
    rw [if_neg (by simp)] at hopsub
    rw [diffNode_self] at hopsub
    simp at hopsub
  have hdel : (diff f f).deleted = [] := by
    rw [List.eq_nil_iff_forall_not_mem]
    intro op hop
    simp only [diff] at hop
    rcases List.mem_append.mp hop with h1 | h1
    · rcases List.mem_flatten.mp h1 with ⟨sub, hsub, hopsub⟩
      rw [List.map_map] at hsub
      rcases List.mem_map.mp hsub with ⟨kc, hkc, rfl⟩
      simp only [Function.comp] at hopsub
      rw [mem_objGet_of_nodup hn hkc] at hopsub
      simp only [] at hopsub
      rw [if_neg (by simp)] at hopsub
      rw [diffNode_self] at hopsub
      simp at hopsub
    · rcases List.mem_filterMap.mp h1 with ⟨kp, hkp, hf2⟩
      rw [if_pos (objHas_of_mem hkp)] at hf2
      exact Option.noConfusion hf2
  calc diff f f = ⟨(diff f f).created, (diff f f).deleted⟩ := rfl
  _ = ⟨[], []⟩ := by rw [hcre, hdel]

/-! ## Claim theorems -/

/-- Claim C1 (evaluation of the code at the failing input): changing the
type of key `a` from GainNode to OscillatorNode makes the differ push the
bare key string (not a whole-node Delete record) into `deleted`; applying
the patch performs no `disconnect()` of any live object — the old gain
node is never removed before the oscillator is created, its table slot is
simply overwritten. -/
theorem type_change_leaks_old_node :
    ((update initSt tcG1).bind (fun s1 => updatePatch s1 tcG2)) =
      some { created := [COp.node { type := "OscillatorNode", key := "a",
                                    properties := [], connections := [] }],
             deleted := [DOp.rawKey "a"] }
    ∧ foldUpdates initSt [tcG1, tcG2] = some tcSt2
    ∧ tcSt2.trace.all (fun e => !isDisconnectAll e) = true
    ∧ (objGet tcSt2.nodes "a").map LiveNode.type = some "OscillatorNode" := by
  decide

/-- Claim C2 (counterexample): the `gain` Fixed Parameter is present in the
previous description and absent from the current one, yet because the
current description carries a Scheduled Update (for the *unrelated* label
`frequency` — the source tests `prop.label` for truthiness, not equality
with the removed label), the node diff emits no deleted operation at all,
in particular no Reset for `gain`. -/
theorem param_removal_reset_cex :
    objGet (keyedProps rsPrev.properties) "gain" = some (.audioParam "gain" (.num 1))
    ∧ objHas (keyedProps rsCurr.properties) "gain" = false
    ∧ rsPrev.type = rsCurr.type
    ∧ (diffNode rsPrev rsCurr).deleted = [] := by
  decide

/-- Claim C2 (amended): when a Fixed Parameter is present in the previous
description, absent from the current one, *and the current description
contains no Scheduled Update property with a truthy label*, the node diff
emits a Reset (deleted AudioParam) operation for it; executing that
operation on a live node that has the parameter leaves the node and the
parameter in place, reverts the parameter to its intrinsic default and
clears its pending automation, and leaves the plain fields untouched. -/
theorem param_removal_reset :
    (∀ (pn cn : FlatNode) (label : String) (v : JVal),
      objGet (keyedProps pn.properties) label = some (.audioParam label v) →
      objHas (keyedProps cn.properties) label = false →
      hasScheduledTruthy cn.properties = false →
      NOp.prop (.audioParam label v) ∈ (diffNode pn cn).deleted)
    ∧ (∀ (st st' : St) (key label : String) (v : JVal) (n : LiveNode) (pa : LiveParam),
      objGet st.nodes key = some n →
      objGet n.params label = some pa →
      applyDOps st [DOp.prop key (.audioParam label v)] = some st' →
      (objGet st'.nodes key).bind (fun n2 => objGet n2.params label) =
        some { value := pa.defaultValue, defaultValue := pa.defaultValue,
               scheduled := [] }
      ∧ (objGet st'.nodes key).map LiveNode.fields = some n.fields) := by
  constructor
  · intro pn cn label v hget habs hsched
    have hmem : (label, JProp.audioParam label v) ∈ keyedProps pn.properties :=
      objGet_eq_some_mem hget
    simp only [diffNode]
    refine List.mem_append.mpr (Or.inl ?_)
    refine List.mem_filterMap.mpr ⟨(label, JProp.audioParam label v), hmem, ?_⟩
    rw [objGet_eq_none_of_objHas_false habs]
    simp [propIsParam, hsched]
  · intro st st' key label v n pa hn hpa h
    simp only [applyDOps, deletedOp, hn, hpa, Option.bind_eq_bind,
      Option.bind_eq_some, Option.some.injEq] at h
    rcases h with ⟨st1, h1, h2⟩
    subst h1
    subst h2
    constructor
    · rw [objGet_insert_self]
      exact objGet_insert_self _ _ _
    · rw [objGet_insert_self]
      rfl

/-- Claim C2 (witness): the reset is emitted for the concrete gain removal,
and applying it to the live gain node of the cancellation scenario reverts
the parameter to its default and keeps it present. -/
theorem param_removal_reset_witness :
    NOp.prop (.audioParam "gain" (.num 1)) ∈ (diffNode rsPrev rsCurr2).deleted
    ∧ ((objGet c2wSt.nodes "k").bind (fun n2 => objGet n2.params "gain") =
        some { value := c2wPa.defaultValue, defaultValue := c2wPa.defaultValue,
               scheduled := [] }
      ∧ (objGet c2wSt.nodes "k").map LiveNode.fields = some c2wN.fields) :=
  ⟨param_removal_reset.1 rsPrev rsCurr2 "gain" (.num 1) (by decide) (by decide)
      (by decide),
    param_removal_reset.2 cxSt1 c2wSt "k" "gain" (.num 2) c2wN c2wPa (by decide)
      (by decide) (by decide)⟩

/-- Claim C3 (counterexample): submitting a gain node with its `gain`
parameter set and then the same node without it makes the applier call
`cancelScheduledValues` on the live parameter of the still-live node — the
patch applier does retract scheduled automation in this path. -/
theorem cancel_happens_on_param_removal :
    foldUpdates initSt [cxG1, cxG2] = some cxSt2
    ∧ Eff.cancelledScheduled "k" "gain" ∈ cxSt2.trace
    ∧ objHas cxSt2.nodes "k" = true := by
  decide

/-- Claim C3 (amended): the patch applier cancels scheduled values only
when executing an AudioParam operation of the patch's deleted list (the
Fixed-Parameter reset path); every `cancelScheduledValues` call in the
trace after applying a patch either predates the patch or corresponds to
such an operation.  No other operation — including every created-pass
operation and the recursive fresh-node patches — cancels automation. -/
theorem cancel_only_from_param_reset (st st' : St) (p : Patch) (k l : String)
    (h : applyPatch st p = some st')
    (hm : Eff.cancelledScheduled k l ∈ st'.trace) :
    Eff.cancelledScheduled k l ∈ st.trace
      ∨ p.deleted.any (isParamDelFor k l) = true := by
  obtain ⟨_, _, added, htr, hc⟩ := applyPatch_spec h
  rw [htr] at hm
  rcases List.mem_append.mp hm with h1 | h1
  · exact Or.inl h1
  · rcases hc k l h1 with ⟨op, hop, hval⟩
    exact Or.inr (List.any_eq_true.mpr ⟨op, hop, hval⟩)

/-- Claim C3 (witness): the cancellation observed in the concrete run is
accounted for by the AudioParam deleted operation of its patch. -/
theorem cancel_only_from_param_reset_witness :
    Eff.cancelledScheduled "k" "gain" ∈ cxSt1.trace
      ∨ cxPatch2.deleted.any (isParamDelFor "k" "gain") = true :=
  cancel_only_from_param_reset cxSt1 cxApplied cxPatch2 "k" "gain" (by decide)
    (by decide)

/-- Claim C4 (evaluation of the code at the failing input): the flattener
only short-circuits `RefNode` children; a Parameter Selector child (type
'AudioParam', no `connections` field) falls through to the general path
and crashes reading its missing connections list, so the whole flatten
throws instead of contributing only a Connection.  A Reference child in
the same position is skipped correctly: it contributes its key to the
parent's connection list and gets no flat-graph entry. -/
theorem selector_child_not_skipped :
    flattenForest selForest = none
    ∧ (flattenForest refForest).map objKeys = some ["osc", "1"]
    ∧ (flattenForest refForest).bind (fun f => objGet f "1") =
        some { type := "GainNode", key := "1", properties := [],
               connections := ["osc"] } := by
  decide

/-- Claim C5: a submission that succeeds stores the flattened graph, and
resubmitting the identical snapshot computes the diff of that flat graph
against itself, which has empty created and deleted lists. -/
theorem second_identical_submission_empty_patch (st : St) (g : VForest) (st' : St)
    (h : update st g = some st') :
    updatePatch st' g = some { created := [], deleted := [] } := by
  simp only [update, Option.bind_eq_bind, Option.bind_eq_some] at h
  rcases h with ⟨f, hf, st1, hap, heq⟩
  rw [Option.some.injEq] at heq
  subst heq
  have hok := flattenForest_flatOk hf
  have hP : updatePatch (runPending { st1 with prev := f }) g = some (diff f f) := by
    rw [updatePatch, hf]
    rfl
  rw [hP, diff_self hok.1]

/-- Claim C5 (witness): the second submission of the concrete gain-plus-
destination graph produces the empty patch. -/
theorem second_identical_submission_empty_patch_witness :
    updatePatch idemSt1 idemG = some { created := [], deleted := [] } :=
  second_identical_submission_empty_patch initSt idemG idemSt1 (by decide)

/-- Claim C6 (evaluation of the code at the failing input): both endpoints
are live and the target carries the parameter label `frequency`, which the
oscillator does have; but `connect` checks `toParam in this.nodes` — the
live node *table* — instead of the target node, so the source is connected
to the oscillator's main input, not to its frequency parameter. -/
theorem connect_param_check_wrong_table :
    runConnectItem cnTable ("src", "osc.frequency") =
      [.connectedToInput "src" "osc"]
    ∧ objHas cnTable "src" = true
    ∧ objHas cnTable "osc" = true
    ∧ objHas oscLive.params "frequency" = true
    ∧ objHas cnTable "frequency" = false := by
  decide

/-- Claim C7 (evaluation of the code at the failing input): creating a gain
node with a `bogus` AudioParam property succeeds (the created pass guards
with `instanceof AudioParam` and skips it), but removing that property
makes the deleted pass call `cancelScheduledValues` on
`this.nodes['k']['bogus']`, which is `undefined` — a TypeError that
propagates synchronously out of `update` to the submission caller. -/
theorem param_reset_throws_to_caller :
    (foldUpdates initSt [bgG1]).isSome = true
    ∧ foldUpdates initSt [bgG1, bgG2] = none := by
  decide

/-- Claim C8: after any sequence of successful submissions (each patch
finished applying, deferred connects included), the key list of the live
node table is a permutation of the key list of the most recently stored
flat graph, and it is duplicate-free — every flat-graph key maps to
exactly one live object and no other key is present. -/
theorem live_table_mirrors_flat_graph (gs : List VForest) (s : St)
    (h : foldUpdates initSt gs = some s) :
    (objKeys s.nodes).Perm (objKeys s.prev) ∧ (objKeys s.nodes).Nodup := by
  obtain ⟨hmem, hn1, hn2, _⟩ := foldUpdates_inv inv_initSt h
  refine ⟨(List.perm_ext_iff_of_nodup hn1 hn2).mpr ?_, hn1⟩
  intro a
  rw [mem_objKeys_iff_objHas, mem_objKeys_iff_objHas, hmem a]

/-- Claim C8 (witness): the invariant at the concrete two-submission run. -/
theorem live_table_mirrors_flat_graph_witness :
    (objKeys ksSt.nodes).Perm (objKeys ksSt.prev) ∧ (objKeys ksSt.nodes).Nodup :=
  live_table_mirrors_flat_graph [idemG, idemG] ksSt (by decide)

/-- Claim C9 (evaluation of the code at the failing input): the fresh-node
path assigns a `key` field onto each created property operation of the
recursive patch (`nodePatch.created.forEach(c => c.key = created.key)`);
those operation objects are the property objects of the caller's input
graph itself, and for the concrete one-property gain node the write list
is exactly one key-write landing on the caller's property object. -/
theorem fresh_node_patch_mutates_input_props :
    (updatePatch initSt mutG).map inputPropKeyWrites =
      some [("0", property "foo" (.num 1))]
    ∧ property "foo" (.num 1) ∈ mutProps := by
  decide

/-- Claim C10 (counterexample): with a truthy key argument `"a"` and a node
already carrying key `"b"`, `keyed` returns the node with key `"b"` — the
spread `...node` overwrites the fresh key, so the result is *not* a copy
of the node extended with the given key. -/
theorem keyed_existing_key_wins_cex :
    keyed "a" kdKeyed = kdKeyed
    ∧ vnodeKey (keyed "a" kdKeyed) = some "b"
    ∧ ("b" : String) ≠ "a" := by
  refine ⟨rfl, rfl, by decide⟩

/-- Claim C10 (amended): a falsy key returns the node itself unchanged with
no key field added; a truthy key adds the key only when the node carries
none — when the node already has a key field (of any of the three object
shapes), the spread preserves the existing key and the node is returned
unchanged. -/
theorem keyed_spec :
    (∀ n, keyed "" n = n)
    ∧ (∀ (k ty : String) (ps : List JProp) (cs : VForest), k ≠ "" →
        keyed k (VNode.vnode ty none ps cs) = VNode.vnode ty (some k) ps cs)
    ∧ (∀ (k ty k0 : String) (ps : List JProp) (cs : VForest), k ≠ "" →
        keyed k (VNode.vnode ty (some k0) ps cs) = VNode.vnode ty (some k0) ps cs)
    ∧ (∀ k r : String, k ≠ "" → keyed k (VNode.refNode r) = VNode.refNode r)
    ∧ (∀ k l t : String, k ≠ "" → keyed k (VNode.paramNode l t) = VNode.paramNode l t) := by
  refine ⟨?_, ?_, ?_, ?_, ?_⟩ <;> intros <;> simp [keyed, *]

/-- Claim C10 (witness): the three behaviours at concrete nodes. -/
theorem keyed_spec_witness :
    keyed "" kdPlain = kdPlain
    ∧ keyed "x" kdPlain = VNode.vnode "GainNode" (some "x") [] .nil
    ∧ keyed "x" kdKeyed = kdKeyed :=
  ⟨keyed_spec.1 kdPlain,
    keyed_spec.2.1 "x" "GainNode" [] .nil (by decide),
    keyed_spec.2.2.1 "x" "GainNode" "b" [] .nil (by decide)⟩

end ElmWebAudio
